import Mathlib

/-!
Shallow embedding of the `default_vec2` crate.

`DefaultVec` (src/default_vec.rs) is a growable array in which every index
beyond the current backing allocation reads as the element type's default
value; `FlagVec` (src/flag_vec.rs) packs `n`-bit values densely into a
`DefaultVec` of 32-bit words.

Machine integers are modelled as `Nat`.  A `u32` word is a `Nat < 2 ^ 32`.
Rust `u32` shifts reduce the shift amount modulo 32 and truncate the result
to 32 bits (the wrapping semantics of a release build); `shl32` and `shr32`
mirror this, which is observable at width `n = 32`, where `1 << n` overflows.
`DefaultVec::reserve` may over-allocate (Rust `Vec::reserve` is amortized);
the model grows to the guaranteed minimum `i + 1`, which is the only bound
the source relies on.
-/

namespace DV2

/-- Rust bitwise complement `!v` on a `u32` value. -/
def u32not (v : Nat) : Nat := v ^^^ (2 ^ 32 - 1)

/-- Rust `u32` left shift `a << s`: shift amount mod 32, result mod `2 ^ 32`. -/
def shl32 (a s : Nat) : Nat := (a <<< (s % 32)) % 2 ^ 32

/-- Rust `u32` right shift `a >> s`: shift amount mod 32. -/
def shr32 (a s : Nat) : Nat := a >>> (s % 32)

/-- `FlagLength::base_mask`: `(1 << len) - 1` in `u32` arithmetic. -/
def base_mask (n : Nat) : Nat := shl32 1 n - 1

/-- `FlagLength::chunk_size`: `Elt::BITS / len`, i.e. `32 / n`. -/
def chunk_size (n : Nat) : Nat := 32 / n

/-- `FlagLength::split`: logical index `x` to `(word index, bit offset)`. -/
def split (n x : Nat) : Nat × Nat :=
  (x / chunk_size n, (x % chunk_size n) * n)

namespace DefaultVec

/-- `DefaultVec::get`: stored value if in range, else the default. -/
def get {α : Type} [Inhabited α] (l : List α) (i : Nat) : α := l.getD i default

/-- `DefaultVec::reserve`: grow the backing allocation to cover index `i`,
filling new slots with the default (modelled at the guaranteed minimum
length `i + 1`). -/
def reserve {α : Type} [Inhabited α] (l : List α) (i : Nat) : List α :=
  l ++ List.replicate (i + 1 - l.length) default

/-- `DefaultVec::get_mut` at `i` followed by writing `f old` through the
returned reference: grows exactly when `i` is out of range. -/
def modify {α : Type} [Inhabited α] (l : List α) (i : Nat) (f : α → α) : List α :=
  if i < l.length then l.set i (f (l.getD i default))
  else (reserve l i).set i (f ((reserve l i).getD i default))

/-- `DefaultVec::clear`: reset every allocated slot to the default. -/
def clear {α : Type} [Inhabited α] (l : List α) : List α := l.map fun _ => default

/-- `DefaultVec::capacity`: the backing allocation length. -/
def capacity {α : Type} (l : List α) : Nat := l.length

/-- `impl PartialEq for DefaultVec`: order the two backings by length as
`(long, short)`, then compare the overlapping prefix and require the long
suffix to be all-default. -/
def eq {α : Type} [DecidableEq α] [Inhabited α] (a b : List α) : Bool :=
  let p := if a.length < b.length then (b, a) else (a, b)
  decide (p.2 = p.1.take p.2.length) &&
    (p.1.drop p.2.length).all fun x => decide (x = (default : α))

end DefaultVec

namespace FlagVec

/-- `FlagVec::or_assign`: `*chunk |= (base_mask & v) << offset`. -/
def or_assign (n : Nat) (d : List Nat) (x v : Nat) : List Nat :=
  DefaultVec.modify d (split n x).1 fun chunk =>
    chunk ||| shl32 (base_mask n &&& v) (split n x).2

/-- `FlagVec::and_assign`: `*chunk &= !((base_mask & !v) << offset)`. -/
def and_assign (n : Nat) (d : List Nat) (x v : Nat) : List Nat :=
  DefaultVec.modify d (split n x).1 fun chunk =>
    chunk &&& u32not (shl32 (base_mask n &&& u32not v) (split n x).2)

/-- `FlagVec::set`: `*chunk |= mask_or; *chunk &= !mask_and`. -/
def set (n : Nat) (d : List Nat) (x v : Nat) : List Nat :=
  DefaultVec.modify d (split n x).1 fun chunk =>
    (chunk ||| shl32 (base_mask n &&& v) (split n x).2) &&&
      u32not (shl32 (base_mask n &&& u32not v) (split n x).2)

/-- `FlagVec::get`: `(chunk >> offset) & base_mask`. -/
def get (n : Nat) (d : List Nat) (x : Nat) : Nat :=
  shr32 (DefaultVec.get d (split n x).1) (split n x).2 &&& base_mask n

/-- `FlagVec::clear`. -/
def clear (d : List Nat) : List Nat := DefaultVec.clear d

/-- `FlagVec::capacity`: backing word capacity times `chunk_size`. -/
def capacity (n : Nat) (d : List Nat) : Nat :=
  DefaultVec.capacity d * chunk_size n

/-- `impl PartialEq for FlagVec`: compares only the backing `DefaultVec`;
the width component is ignored. -/
def beq (a b : Nat × List Nat) : Bool := DefaultVec.eq a.2 b.2

/-- One word unpacked by `FlagVec::iter`'s inner closure: `k` successive
values `x & base_mask`, shifting `x` right by `len` between values. -/
def unpack_word (n : Nat) : Nat → Nat → List Nat
  | 0, _ => []
  | k + 1, x => (x &&& base_mask n) :: unpack_word n k (shr32 x n)

/-- `FlagVec::iter`: `flat_map` of `unpack_word` (with `chunk_size` values
per word) over the backing words, in ascending word order. -/
def iter (n : Nat) : List Nat → List Nat
  | [] => []
  | w :: rest => unpack_word n (chunk_size n) w ++ iter n rest

/-- States of the backing word array reachable from a fresh `FlagVec` of
width `n` by `set`, `or_assign`, `and_assign` and `clear` (arguments `v`
are `u32` values). -/
inductive Reachable (n : Nat) : List Nat → Prop
  | empty : Reachable n []
  | set_step (d x v) : v < 2 ^ 32 → Reachable n d → Reachable n (set n d x v)
  | or_step (d x v) : v < 2 ^ 32 → Reachable n d → Reachable n (or_assign n d x v)
  | and_step (d x v) : v < 2 ^ 32 → Reachable n d → Reachable n (and_assign n d x v)
  | clear_step (d) : Reachable n d → Reachable n (clear d)

end FlagVec

/-! Helper lemmas about `DefaultVec.reserve` and `DefaultVec.modify`. -/

namespace DefaultVec

theorem length_reserve {α : Type} [Inhabited α] (l : List α) (i : Nat) :
    (reserve l i).length = max l.length (i + 1) := by
  simp only [reserve, List.length_append, List.length_replicate]
  omega

theorem getD_reserve {α : Type} [Inhabited α] (l : List α) (i j : Nat) :
    (reserve l i).getD j default = l.getD j default := by
  rcases Nat.lt_or_ge j l.length with h | h
  · exact List.getD_append _ _ _ _ h
  · simp only [reserve, List.getD_eq_getElem?_getD, List.getElem?_append_right h,
      List.getElem?_replicate, List.getElem?_eq_none h]
    split <;> simp

theorem length_modify {α : Type} [Inhabited α] (l : List α) (i : Nat) (f : α → α) :
    (modify l i f).length = max l.length (i + 1) := by
  unfold modify
  split
  · next h => simp only [List.length_set]; omega
  · next h => simp only [List.length_set, length_reserve]

theorem getD_modify_self {α : Type} [Inhabited α] (l : List α) (i : Nat) (f : α → α) :
    (modify l i f).getD i default = f (l.getD i default) := by
  unfold modify
  split
  · next h =>
    rw [List.getD_eq_getElem?_getD, List.getElem?_set_self (by simpa using h)]
    rfl
  · next h =>
    have hlen : i < (reserve l i).length := by rw [length_reserve]; omega
    have hval : (reserve l i).getD i default = l.getD i default := getD_reserve l i i
    rw [List.getD_eq_getElem?_getD, List.getElem?_set_self (by simpa using hlen),
      Option.getD_some, hval]

theorem getD_modify_ne {α : Type} [Inhabited α] (l : List α) (i j : Nat) (f : α → α)
    (h : j ≠ i) : (modify l i f).getD j default = l.getD j default := by
  unfold modify
  split
  · rw [List.getD_eq_getElem?_getD, List.getElem?_set_ne (Ne.symm h),
      ← List.getD_eq_getElem?_getD]
  · rw [List.getD_eq_getElem?_getD, List.getElem?_set_ne (Ne.symm h),
      ← List.getD_eq_getElem?_getD, getD_reserve]

theorem mem_modify {α : Type} [Inhabited α] (l : List α) (i : Nat) (f : α → α) (w : α)
    (hw : w ∈ modify l i f) :
    w = f (l.getD i default) ∨ w ∈ l ∨ w = default := by
  unfold modify at hw
  split at hw
  · rcases List.mem_or_eq_of_mem_set hw with h | h
    · exact Or.inr (Or.inl h)
    · exact Or.inl h
  · rcases List.mem_or_eq_of_mem_set hw with h | h
    · simp only [reserve, List.mem_append] at h
      rcases h with h | h
      · exact Or.inr (Or.inl h)
      · exact Or.inr (Or.inr (List.eq_of_mem_replicate h))
    · rw [getD_reserve] at h
      exact Or.inl h

theorem getD_mem_or_default {α : Type} [Inhabited α] (l : List α) (i : Nat) :
    l.getD i default ∈ l ∨ l.getD i default = default := by
  rcases Nat.lt_or_ge i l.length with h | h
  · rw [List.getD_eq_getElem _ _ h]
    exact Or.inl (List.getElem_mem h)
  · rw [List.getD_eq_getElem?_getD, List.getElem?_eq_none h]
    exact Or.inr rfl

end DefaultVec

/-! Helper lemmas about 32-bit shifts, masks and bit extraction. -/

theorem testBit_u32not (v b : Nat) (hb : b < 32) :
    (u32not v).testBit b = !v.testBit b := by
  unfold u32not
  rw [Nat.testBit_xor, Nat.testBit_two_pow_sub_one]
  simp [hb]

theorem base_mask_eq (n : Nat) : base_mask n = 2 ^ (n % 32) - 1 := by
  have h : (2 : Nat) ^ (n % 32) < 2 ^ 32 :=
    Nat.pow_lt_pow_right (by norm_num) (Nat.mod_lt _ (by norm_num))
  unfold base_mask shl32
  rw [Nat.one_shiftLeft, Nat.mod_eq_of_lt h]

theorem testBit_base_mask (n b : Nat) :
    (base_mask n).testBit b = decide (b < n % 32) := by
  rw [base_mask_eq, Nat.testBit_two_pow_sub_one]

theorem testBit_shl32 (a s b : Nat) :
    (shl32 a s).testBit b =
      (decide (b < 32) && (decide (s % 32 ≤ b) && a.testBit (b - s % 32))) := by
  unfold shl32
  rw [Nat.testBit_mod_two_pow, Nat.testBit_shiftLeft]

theorem chunk_mul_le (n : Nat) : chunk_size n * n ≤ 32 := by
  simpa [chunk_size, Nat.mul_comm] using Nat.div_mul_le_self 32 n

theorem split_off_add_le_chunk (n x : Nat) (h1 : 1 ≤ n) (h2 : n ≤ 32) :
    (split n x).2 + n ≤ chunk_size n * n := by
  have hcs : 0 < chunk_size n := Nat.div_pos h2 h1
  have hx : x % chunk_size n < chunk_size n := Nat.mod_lt _ hcs
  have hmul : (x % chunk_size n) * n + n ≤ chunk_size n * n := by
    calc (x % chunk_size n) * n + n = (x % chunk_size n + 1) * n := by ring
    _ ≤ chunk_size n * n := Nat.mul_le_mul_right _ hx
  simpa [split] using hmul

theorem split_off_add_le (n x : Nat) (h1 : 1 ≤ n) (h2 : n ≤ 32) :
    (split n x).2 + n ≤ 32 :=
  le_trans (split_off_add_le_chunk n x h1 h2) (chunk_mul_le n)

theorem testBit_window_in (n off v b : Nat) (hoffn : off + n ≤ 32) (hn : n ≤ 31)
    (hb : b < n) :
    (shl32 (base_mask n &&& v) off).testBit (off + b) = v.testBit b := by
  rw [testBit_shl32]
  have hoff : off % 32 = off := Nat.mod_eq_of_lt (by omega)
  have hn32 : n % 32 = n := Nat.mod_eq_of_lt (by omega)
  simp [hoff, Nat.testBit_and, testBit_base_mask, hn32, hb, show off + b < 32 by omega]

theorem testBit_window_out (n off v b : Nat) (hoff : off < 32)
    (hb : b < off ∨ off + n ≤ b) :
    (shl32 (base_mask n &&& v) off).testBit b = false := by
  rw [testBit_shl32]
  have hoff32 : off % 32 = off := Nat.mod_eq_of_lt hoff
  rcases hb with hb | hb
  · simp [hoff32, show ¬ off ≤ b by omega]
  · rcases Nat.lt_or_ge b 32 with h32 | h32
    · have hnb : ¬ (b - off < n % 32) := by
        have := Nat.mod_le n 32
        omega
      simp [hoff32, Nat.testBit_and, testBit_base_mask, hnb]
    · simp [show ¬ b < 32 by omega]

/-! Value-level behaviour of one modified chunk, read back at the same
offset (`set`, `or_assign`, `and_assign` write patterns). -/

theorem set_chunk_bits (n c v off : Nat) (h1 : 1 ≤ n) (hn : n ≤ 31)
    (hoffn : off + n ≤ 32) :
    (((c ||| shl32 (base_mask n &&& v) off) &&&
        u32not (shl32 (base_mask n &&& u32not v) off)) >>> off) &&& base_mask n
      = v &&& (2 ^ n - 1) := by
  have hn32 : n % 32 = n := Nat.mod_eq_of_lt (by omega)
  apply Nat.eq_of_testBit_eq
  intro b
  simp only [Nat.testBit_and, Nat.testBit_or, Nat.testBit_shiftRight, testBit_base_mask,
    Nat.testBit_two_pow_sub_one, hn32]
  rcases Nat.lt_or_ge b n with hb | hb
  · rw [testBit_window_in n off v b hoffn hn hb,
      testBit_u32not _ _ (show off + b < 32 by omega),
      testBit_window_in n off (u32not v) b hoffn hn hb,
      testBit_u32not _ _ (show b < 32 by omega)]
    cases v.testBit b <;> cases c.testBit (off + b) <;> simp [hb]
  · simp [show ¬ b < n by omega]

theorem or_chunk_bits (n c v off : Nat) (h1 : 1 ≤ n) (hn : n ≤ 31)
    (hoffn : off + n ≤ 32) :
    ((c ||| shl32 (base_mask n &&& v) off) >>> off) &&& base_mask n
      = (((c >>> off) &&& base_mask n) ||| (v &&& (2 ^ n - 1))) := by
  have hn32 : n % 32 = n := Nat.mod_eq_of_lt (by omega)
  apply Nat.eq_of_testBit_eq
  intro b
  simp only [Nat.testBit_and, Nat.testBit_or, Nat.testBit_shiftRight, testBit_base_mask,
    Nat.testBit_two_pow_sub_one, hn32]
  rcases Nat.lt_or_ge b n with hb | hb
  · rw [testBit_window_in n off v b hoffn hn hb]
    cases v.testBit b <;> cases c.testBit (off + b) <;> simp [hb]
  · simp [show ¬ b < n by omega]

theorem and_chunk_bits (n c v off : Nat) (h1 : 1 ≤ n) (hn : n ≤ 31)
    (hoffn : off + n ≤ 32) :
    ((c &&& u32not (shl32 (base_mask n &&& u32not v) off)) >>> off) &&& base_mask n
      = (((c >>> off) &&& base_mask n) &&& (v &&& (2 ^ n - 1))) := by
  have hn32 : n % 32 = n := Nat.mod_eq_of_lt (by omega)
  apply Nat.eq_of_testBit_eq
  intro b
  simp only [Nat.testBit_and, Nat.testBit_or, Nat.testBit_shiftRight, testBit_base_mask,
    Nat.testBit_two_pow_sub_one, hn32]
  rcases Nat.lt_or_ge b n with hb | hb
  · rw [testBit_u32not _ _ (show off + b < 32 by omega),
      testBit_window_in n off (u32not v) b hoffn hn hb,
      testBit_u32not _ _ (show b < 32 by omega)]
    cases v.testBit b <;> cases c.testBit (off + b) <;> simp [hb]
  · simp [show ¬ b < n by omega]

/-! Claim theorems. -/

/-- C1 (amended to widths 1–31; at width 32 the source's `1 << n` shift
overflows, see `set_get_width32_cex`): for every width `1 ≤ n ≤ 31`, every
index `x` and every 32-bit value `v`, after `set x v` a `get x` returns
`v & ((1 << n) - 1)` — values wider than `n` bits are truncated to their
low `n` bits. -/
theorem set_get_truncates (n : Nat) (d : List Nat) (x v : Nat)
    (h1 : 1 ≤ n) (h2 : n ≤ 31) (hv : v < 2 ^ 32) :
    FlagVec.get n (FlagVec.set n d x v) x = v &&& (2 ^ n - 1) := by
  have hoffn : (split n x).2 + n ≤ 32 := split_off_add_le n x h1 (by omega)
  have hoff : (split n x).2 % 32 = (split n x).2 := Nat.mod_eq_of_lt (by omega)
  unfold FlagVec.get FlagVec.set DefaultVec.get shr32
  rw [DefaultVec.getD_modify_self, hoff]
  exact set_chunk_bits n _ v _ h1 h2 hoffn

/-- C1 witness: width 4, `set x 18` then `get x` yields `2` (18 = 0b10010
truncated to 0b0010). -/
theorem set_get_truncates_witness :
    FlagVec.get 4 (FlagVec.set 4 ([] : List Nat) 0 18) 0 = 2 := by
  have h := set_get_truncates 4 [] 0 18 (by norm_num) (by norm_num) (by norm_num)
  rw [h]
  decide

/-- C1 counterexample: at width `n = 32` — a valid width per the claim —
`set 0 1` followed by `get 0` returns `0`, not `1 & ((1 << 32) - 1) = 1`:
the source computes `1u32 << 32`, which overflows (masked to `1 << 0` in a
release build), so `base_mask` is `0` and nothing is stored. -/
theorem set_get_width32_cex :
    ¬ (FlagVec.get 32 (FlagVec.set 32 ([] : List Nat) 0 1) 0
        = 1 &&& (2 ^ 32 - 1)) := by decide

/-- C2 (amended to widths 1–31; at width 32 `base_mask` suffers shift
overflow, see `base_mask_width32_cex`): for `1 ≤ n ≤ 31` the width
abstraction is well defined — `base_mask` is the low-`n`-bits mask
`(1 << n) - 1`, `chunk_size` is `32 / n` (positive, so no division by zero
and no empty chunks), and `split x = (x / chunk_size, (x % chunk_size) * n)`. -/
theorem width_ops_well_defined (n : Nat) (h1 : 1 ≤ n) (h2 : n ≤ 31) :
    base_mask n = 2 ^ n - 1 ∧ 0 < chunk_size n ∧ chunk_size n = 32 / n ∧
      ∀ x, split n x = (x / chunk_size n, (x % chunk_size n) * n) := by
  refine ⟨?_, Nat.div_pos (by omega) h1, rfl, fun x => rfl⟩
  rw [base_mask_eq, Nat.mod_eq_of_lt (by omega)]

/-- C2 witness: width 4 instance. -/
theorem width_ops_well_defined_witness : base_mask 4 = 2 ^ 4 - 1 :=
  (width_ops_well_defined 4 (by norm_num) (by norm_num)).1

/-- C2 counterexample: at width 32 — inside the claim's range `1 ≤ N ≤ 32` —
`base_mask` is `0`, not the low-32-bits mask `2 ^ 32 - 1`, because the
source's `1u32 << 32` overflows. -/
theorem base_mask_width32_cex : ¬ (base_mask 32 = 2 ^ 32 - 1) := by decide

/-- C3 (amended to widths 1–31; at width 32 the mask `(1 << n) - 1`
degenerates by shift overflow, see `or_assign_width32_cex`): with
`mask = (1 << n) - 1` and `old = get x`, after `or_assign x v` a `get x`
returns `old ||| (v & mask)`, and after `and_assign x v` it returns
`old &&& (v & mask)`. -/
theorem or_and_assign_spec (n : Nat) (d : List Nat) (x v : Nat)
    (h1 : 1 ≤ n) (h2 : n ≤ 31) (hv : v < 2 ^ 32) :
    FlagVec.get n (FlagVec.or_assign n d x v) x
        = (FlagVec.get n d x ||| (v &&& (2 ^ n - 1))) ∧
      FlagVec.get n (FlagVec.and_assign n d x v) x
        = (FlagVec.get n d x &&& (v &&& (2 ^ n - 1))) := by
  have hoffn : (split n x).2 + n ≤ 32 := split_off_add_le n x h1 (by omega)
  have hoff : (split n x).2 % 32 = (split n x).2 := Nat.mod_eq_of_lt (by omega)
  constructor
  · unfold FlagVec.get FlagVec.or_assign DefaultVec.get shr32
    rw [DefaultVec.getD_modify_self, hoff]
    exact or_chunk_bits n _ v _ h1 h2 hoffn
  · unfold FlagVec.get FlagVec.and_assign DefaultVec.get shr32
    rw [DefaultVec.getD_modify_self, hoff]
    exact and_chunk_bits n _ v _ h1 h2 hoffn

/-- C3 witness: width 4, a slot holding 11 becomes 1 after `and_assign x 5`. -/
theorem or_and_assign_spec_witness :
    FlagVec.get 4 (FlagVec.and_assign 4 (FlagVec.set 4 ([] : List Nat) 0 11) 0 5) 0
      = 1 := by
  have h := (or_and_assign_spec 4 (FlagVec.set 4 [] 0 11) 0 5
    (by norm_num) (by norm_num) (by norm_num)).2
  rw [h]
  decide

/-- C3 counterexample: at width 32 — a valid width per the spec's domain
constraint — `or_assign 0 1` on an empty store leaves `get 0 = 0`, while
the claim requires `old ||| (1 & ((1 << 32) - 1)) = 1`. -/
theorem or_assign_width32_cex :
    ¬ (FlagVec.get 32 (FlagVec.or_assign 32 ([] : List Nat) 0 1) 0
        = (FlagVec.get 32 ([] : List Nat) 0 ||| (1 &&& (2 ^ 32 - 1)))) := by decide

theorem frame_chunk_bits (n c v ox oj : Nat) (h1 : 1 ≤ n)
    (hox : ox + n ≤ 32) (hoj : oj + n ≤ 32)
    (hdisj : oj + n ≤ ox ∨ ox + n ≤ oj) :
    ((((c ||| shl32 (base_mask n &&& v) ox) &&&
        u32not (shl32 (base_mask n &&& u32not v) ox)) >>> oj) &&& base_mask n
      = (c >>> oj) &&& base_mask n) ∧
    (((c ||| shl32 (base_mask n &&& v) ox) >>> oj) &&& base_mask n
      = (c >>> oj) &&& base_mask n) ∧
    (((c &&& u32not (shl32 (base_mask n &&& u32not v) ox)) >>> oj) &&& base_mask n
      = (c >>> oj) &&& base_mask n) := by
  have hkey : ∀ b, b < n % 32 →
      (shl32 (base_mask n &&& v) ox).testBit (oj + b) = false ∧
      (u32not (shl32 (base_mask n &&& u32not v) ox)).testBit (oj + b) = true := by
    intro b hb
    have hbn : b < n := lt_of_lt_of_le hb (Nat.mod_le n 32)
    have hout : oj + b < ox ∨ ox + n ≤ oj + b := by
      rcases hdisj with h | h
      · left; omega
      · right; omega
    refine ⟨testBit_window_out n ox v _ (by omega) hout, ?_⟩
    rw [testBit_u32not _ _ (by omega), testBit_window_out n ox (u32not v) _ (by omega) hout]
    rfl
  refine ⟨?_, ?_, ?_⟩
  · apply Nat.eq_of_testBit_eq
    intro b
    simp only [Nat.testBit_and, Nat.testBit_or, Nat.testBit_shiftRight, testBit_base_mask]
    rcases Nat.lt_or_ge b (n % 32) with hb | hb
    · rw [(hkey b hb).1, (hkey b hb).2]; simp
    · simp [show ¬ b < n % 32 by omega]
  · apply Nat.eq_of_testBit_eq
    intro b
    simp only [Nat.testBit_and, Nat.testBit_or, Nat.testBit_shiftRight, testBit_base_mask]
    rcases Nat.lt_or_ge b (n % 32) with hb | hb
    · rw [(hkey b hb).1]; simp
    · simp [show ¬ b < n % 32 by omega]
  · apply Nat.eq_of_testBit_eq
    intro b
    simp only [Nat.testBit_and, Nat.testBit_or, Nat.testBit_shiftRight, testBit_base_mask]
    rcases Nat.lt_or_ge b (n % 32) with hb | hb
    · rw [(hkey b hb).2]; simp
    · simp [show ¬ b < n % 32 by omega]

/-- C4: for any valid width `1 ≤ n ≤ 32` and distinct indices `x ≠ j`,
`set`, `or_assign` and `and_assign` at `x` leave `get j` unchanged: they
touch only the `n`-bit window of slot `x` inside its word, and growth only
appends default (zero) words. -/
theorem write_frame (n : Nat) (d : List Nat) (x j v : Nat)
    (h1 : 1 ≤ n) (h2 : n ≤ 32) (hxj : x ≠ j) :
    FlagVec.get n (FlagVec.set n d x v) j = FlagVec.get n d j ∧
      FlagVec.get n (FlagVec.or_assign n d x v) j = FlagVec.get n d j ∧
      FlagVec.get n (FlagVec.and_assign n d x v) j = FlagVec.get n d j := by
  have hcs : 0 < chunk_size n := Nat.div_pos h2 h1
  by_cases hc : (split n x).1 = (split n j).1
  · have hmod : x % chunk_size n ≠ j % chunk_size n := by
      intro he
      apply hxj
      have hx := Nat.div_add_mod x (chunk_size n)
      have hj := Nat.div_add_mod j (chunk_size n)
      have hq : x / chunk_size n = j / chunk_size n := by simpa [split] using hc
      rw [hq, he] at hx
      omega
    have hdisj : (split n j).2 + n ≤ (split n x).2 ∨
        (split n x).2 + n ≤ (split n j).2 := by
      simp only [split]
      rcases Nat.lt_or_ge (j % chunk_size n) (x % chunk_size n) with h | h
      · left
        calc (j % chunk_size n) * n + n = (j % chunk_size n + 1) * n := by ring
        _ ≤ (x % chunk_size n) * n := Nat.mul_le_mul_right _ h
      · right
        have hlt : x % chunk_size n < j % chunk_size n := lt_of_le_of_ne h hmod
        calc (x % chunk_size n) * n + n = (x % chunk_size n + 1) * n := by ring
        _ ≤ (j % chunk_size n) * n := Nat.mul_le_mul_right _ hlt
    have hox := split_off_add_le n x h1 h2
    have hoj := split_off_add_le n j h1 h2
    have hfc := frame_chunk_bits n (d.getD (split n x).1 default) v
      (split n x).2 (split n j).2 h1 hox hoj hdisj
    have hmlt : (split n j).2 % 32 = (split n j).2 := Nat.mod_eq_of_lt (by omega)
    refine ⟨?_, ?_, ?_⟩
    · unfold FlagVec.get FlagVec.set DefaultVec.get shr32
      rw [← hc, DefaultVec.getD_modify_self, hmlt]
      exact hfc.1
    · unfold FlagVec.get FlagVec.or_assign DefaultVec.get shr32
      rw [← hc, DefaultVec.getD_modify_self, hmlt]
      exact hfc.2.1
    · unfold FlagVec.get FlagVec.and_assign DefaultVec.get shr32
      rw [← hc, DefaultVec.getD_modify_self, hmlt]
      exact hfc.2.2
  · have hne : (split n j).1 ≠ (split n x).1 := fun he => hc he.symm
    refine ⟨?_, ?_, ?_⟩
    · unfold FlagVec.get FlagVec.set DefaultVec.get
      rw [DefaultVec.getD_modify_ne _ _ _ _ hne]
    · unfold FlagVec.get FlagVec.or_assign DefaultVec.get
      rw [DefaultVec.getD_modify_ne _ _ _ _ hne]
    · unfold FlagVec.get FlagVec.and_assign DefaultVec.get
      rw [DefaultVec.getD_modify_ne _ _ _ _ hne]

/-- C4 witness: width 4, writing slot 0 does not change slot 1. -/
theorem write_frame_witness :
    FlagVec.get 4 (FlagVec.set 4 ([] : List Nat) 0 7) 1
      = FlagVec.get 4 ([] : List Nat) 1 :=
  (write_frame 4 [] 0 1 7 (by norm_num) (by norm_num) (by norm_num)).1

/-- C5: `FlagVec` equality is exactly equality of the backing word arrays;
the width component plays no part, so two stores with different widths but
the same backing words are equal. -/
theorem flag_vec_eq_ignores_width :
    (∀ a b : Nat × List Nat, FlagVec.beq a b = true ↔ DefaultVec.eq a.2 b.2 = true) ∧
      ∀ n1 n2 : Nat, ∀ d : List Nat, n1 ≠ n2 → FlagVec.beq (n1, d) (n2, d) = true := by
  refine ⟨fun a b => Iff.rfl, fun n1 n2 d _ => ?_⟩
  unfold FlagVec.beq DefaultVec.eq
  simp

/-- C5 witness: dynamic widths 4 and 7 over the same single backing word. -/
theorem flag_vec_eq_ignores_width_witness :
    FlagVec.beq (4, [5]) (7, [5]) = true :=
  flag_vec_eq_ignores_width.2 4 7 [5] (by norm_num)

theorem high_bits_step (n x c v b : Nat) (h1 : 1 ≤ n) (h2 : n ≤ 32)
    (hb : chunk_size n * n ≤ b) (hc : c.testBit b = false) :
    ((c ||| shl32 (base_mask n &&& v) (split n x).2) &&&
        u32not (shl32 (base_mask n &&& u32not v) (split n x).2)).testBit b = false ∧
      (c ||| shl32 (base_mask n &&& v) (split n x).2).testBit b = false ∧
      (c &&& u32not (shl32 (base_mask n &&& u32not v) (split n x).2)).testBit b
        = false := by
  have hoffc := split_off_add_le_chunk n x h1 h2
  have hoff32 := split_off_add_le n x h1 h2
  have hA : (shl32 (base_mask n &&& v) (split n x).2).testBit b = false :=
    testBit_window_out n _ v b (by omega) (Or.inr (by omega))
  have hor : (c ||| shl32 (base_mask n &&& v) (split n x).2).testBit b = false := by
    rw [Nat.testBit_or, hc, hA]
    simp
  have hand : (c &&& u32not (shl32 (base_mask n &&& u32not v) (split n x).2)).testBit b
      = false := by
    rw [Nat.testBit_and, hc]
    simp
  refine ⟨?_, hor, hand⟩
  rw [Nat.testBit_and, hor]
  simp

/-- C6: in every state of the backing word array reachable from a fresh
store of valid width `n` by `set`, `or_assign`, `and_assign` and `clear`,
every bit at position `≥ chunk_size * n` of every stored word is 0. -/
theorem reachable_high_bits_zero (n : Nat) (d : List Nat) (h1 : 1 ≤ n) (h2 : n ≤ 32)
    (hr : FlagVec.Reachable n d) :
    ∀ w ∈ d, ∀ b, chunk_size n * n ≤ b → w.testBit b = false := by
  induction hr with
  | empty => intro w hw; exact absurd hw (List.not_mem_nil w)
  | set_step d x v hv hrd ih =>
    intro w hw b hb
    have hc : (d.getD (split n x).1 default).testBit b = false := by
      rcases DefaultVec.getD_mem_or_default d (split n x).1 with hm | hd0
      · exact ih _ hm b hb
      · rw [hd0]; exact Nat.zero_testBit b
    rcases DefaultVec.mem_modify _ _ _ _ hw with hfc | hmem | hdef
    · rw [hfc]
      exact (high_bits_step n x (d.getD (split n x).1 default) v b h1 h2 hb hc).1
    · exact ih _ hmem b hb
    · rw [hdef]; exact Nat.zero_testBit b
  | or_step d x v hv hrd ih =>
    intro w hw b hb
    have hc : (d.getD (split n x).1 default).testBit b = false := by
      rcases DefaultVec.getD_mem_or_default d (split n x).1 with hm | hd0
      · exact ih _ hm b hb
      · rw [hd0]; exact Nat.zero_testBit b
    rcases DefaultVec.mem_modify _ _ _ _ hw with hfc | hmem | hdef
    · rw [hfc]
      exact (high_bits_step n x (d.getD (split n x).1 default) v b h1 h2 hb hc).2.1
    · exact ih _ hmem b hb
    · rw [hdef]; exact Nat.zero_testBit b
  | and_step d x v hv hrd ih =>
    intro w hw b hb
    have hc : (d.getD (split n x).1 default).testBit b = false := by
      rcases DefaultVec.getD_mem_or_default d (split n x).1 with hm | hd0
      · exact ih _ hm b hb
      · rw [hd0]; exact Nat.zero_testBit b
    rcases DefaultVec.mem_modify _ _ _ _ hw with hfc | hmem | hdef
    · rw [hfc]
      exact (high_bits_step n x (d.getD (split n x).1 default) v b h1 h2 hb hc).2.2
    · exact ih _ hmem b hb
    · rw [hdef]; exact Nat.zero_testBit b
  | clear_step d hrd ih =>
    intro w hw b hb
    unfold FlagVec.clear DefaultVec.clear at hw
    rcases List.mem_map.1 hw with ⟨a, _, ha⟩
    rw [← ha]
    exact Nat.zero_testBit b

/-- C6 witness: after `set 0 5` at width 4 the single stored word is 5 and
bit 33 (a position `≥ chunk_size * n = 32`) is 0. -/
theorem reachable_high_bits_zero_witness :
    ((FlagVec.set 4 ([] : List Nat) 0 5).getD 0 0).testBit 33 = false := by
  have h := reachable_high_bits_zero 4 (FlagVec.set 4 [] 0 5) (by norm_num) (by norm_num)
    (FlagVec.Reachable.set_step [] 0 5 (by norm_num) FlagVec.Reachable.empty)
  exact h _ (by decide) 33 (by decide)

/-- C9: the growth path `reserve i` is only entered with `i ≥` the current
backing length; there the intermediate subtraction `i + 1 - len` cannot
underflow (`len ≤ i + 1`) and the post-growth assertion `i < new length`
always holds. -/
theorem reserve_assertion_holds {α : Type} [Inhabited α] (l : List α) (i : Nat)
    (h : l.length ≤ i) :
    l.length ≤ i + 1 ∧ i < (DefaultVec.reserve l i).length := by
  refine ⟨by omega, ?_⟩
  rw [DefaultVec.length_reserve]
  omega

/-- C9 witness: growing a length-2 backing to cover index 5. -/
theorem reserve_assertion_holds_witness :
    ([0, 0] : List Nat).length ≤ 5 + 1 ∧
      5 < (DefaultVec.reserve ([0, 0] : List Nat) 5).length :=
  reserve_assertion_holds [0, 0] 5 (by norm_num)

/-- C10: each of `set`, `or_assign` and `and_assign` at index `x` leaves the
store with `capacity > x`, even when the written value contributes no bits
(the backing always grows to cover `x`'s word). -/
theorem write_grows_capacity (n : Nat) (d : List Nat) (x v : Nat)
    (h1 : 1 ≤ n) (h2 : n ≤ 32) :
    x < FlagVec.capacity n (FlagVec.set n d x v) ∧
      x < FlagVec.capacity n (FlagVec.or_assign n d x v) ∧
      x < FlagVec.capacity n (FlagVec.and_assign n d x v) := by
  have hcs : 0 < chunk_size n := Nat.div_pos h2 h1
  have hx : x < (x / chunk_size n + 1) * chunk_size n := by
    have hm := Nat.mod_lt x hcs
    have hd := Nat.div_add_mod x (chunk_size n)
    have he : (x / chunk_size n + 1) * chunk_size n
        = chunk_size n * (x / chunk_size n) + chunk_size n := by ring
    omega
  have key : ∀ f : Nat → Nat,
      x < FlagVec.capacity n (DefaultVec.modify d (split n x).1 f) := by
    intro f
    unfold FlagVec.capacity DefaultVec.capacity
    rw [DefaultVec.length_modify]
    calc x < (x / chunk_size n + 1) * chunk_size n := hx
    _ ≤ max d.length ((split n x).1 + 1) * chunk_size n := by
        apply Nat.mul_le_mul_right
        simp only [split]
        omega
  exact ⟨key _, key _, key _⟩

/-- C10 witness: `set 0 0` on an empty width-4 store still allocates a word,
giving capacity 8 > 0. -/
theorem write_grows_capacity_witness :
    0 < FlagVec.capacity 4 (FlagVec.set 4 ([] : List Nat) 0 0) :=
  (write_grows_capacity 4 [] 0 0 (by norm_num) (by norm_num)).1

theorem take_eq_iff_getD {α : Type} [Inhabited α] (short long : List α)
    (h : short.length ≤ long.length) :
    short = long.take short.length ↔
      ∀ k, k < short.length → long.getD k default = short.getD k default := by
  constructor
  · intro he k hk
    conv_rhs => rw [he]
    have hk2 : k < (long.take short.length).length := by
      rw [List.length_take]; omega
    rw [List.getD_eq_getElem _ _ (lt_of_lt_of_le hk h), List.getD_eq_getElem _ _ hk2,
      List.getElem_take]
  · intro hk
    apply List.ext_getElem
    · rw [List.length_take]; omega
    · intro k hk1 hk2
      have := hk k hk1
      rw [List.getD_eq_getElem _ _ hk1, List.getD_eq_getElem _ _ (lt_of_lt_of_le hk1 h)]
        at this
      rw [List.getElem_take]
      exact this.symm

theorem drop_all_default_iff {α : Type} [DecidableEq α] [Inhabited α] (long : List α)
    (s : Nat) :
    ((long.drop s).all fun x => decide (x = (default : α))) = true ↔
      ∀ k, s ≤ k → long.getD k default = default := by
  rw [List.all_eq_true]
  constructor
  · intro hall k hk
    rcases Nat.lt_or_ge k long.length with hkl | hkl
    · have hmem : long[k] ∈ long.drop s := by
        rw [List.mem_iff_getElem]
        refine ⟨k - s, by rw [List.length_drop]; omega, ?_⟩
        rw [List.getElem_drop]
        congr 1
        omega
      have hx := hall _ hmem
      rw [decide_eq_true_eq] at hx
      rw [List.getD_eq_getElem _ _ hkl, hx]
    · rw [List.getD_eq_getElem?_getD, List.getElem?_eq_none hkl]
      rfl
  · intro hd x hx
    rw [decide_eq_true_eq]
    rcases List.mem_iff_getElem.1 hx with ⟨j, hj, hxe⟩
    rw [List.getElem_drop] at hxe
    have hlen : s + j < long.length := by
      rw [List.length_drop] at hj
      omega
    have hk := hd (s + j) (by omega)
    rw [List.getD_eq_getElem _ _ hlen] at hk
    rw [← hxe]
    exact hk

theorem eq_branch {α : Type} [DecidableEq α] [Inhabited α] (long short : List α)
    (h : short.length ≤ long.length) :
    (decide (short = long.take short.length) &&
        (long.drop short.length).all fun x => decide (x = (default : α))) = true ↔
      ((∀ k, k < short.length → long.getD k default = short.getD k default) ∧
        ∀ k, short.length ≤ k → long.getD k default = default) := by
  rw [Bool.and_eq_true, decide_eq_true_eq, take_eq_iff_getD short long h,
    drop_all_default_iff long short.length]

/-- C7: two `DefaultVec`s are equal exactly when, with `s` the shorter
backing length, the first `s` elements agree and every element of the
longer backing at index `≥ s` is the default; in particular a backing of
capacity 1 holding `v` equals one of capacity 100 holding `v` at index 0
and defaults elsewhere. -/
theorem default_vec_eq_spec {α : Type} [DecidableEq α] [Inhabited α] (a b : List α) :
    (DefaultVec.eq a b = true ↔
      ((∀ k, k < min a.length b.length → a.getD k default = b.getD k default) ∧
        ∀ k, min a.length b.length ≤ k →
          (if a.length < b.length then b else a).getD k default = default)) ∧
      ∀ v : Nat, DefaultVec.eq [v] (v :: List.replicate 99 (0 : Nat)) = true := by
  constructor
  · rcases Nat.lt_or_ge a.length b.length with h | h
    · have he : DefaultVec.eq a b =
          (decide (a = b.take a.length) &&
            (b.drop a.length).all fun x => decide (x = (default : α))) := by
        simp [DefaultVec.eq, h]
      rw [he, if_pos h, Nat.min_eq_left (le_of_lt h), eq_branch b a (le_of_lt h)]
      constructor
      · rintro ⟨hp, hs⟩
        exact ⟨fun k hk => (hp k hk).symm, hs⟩
      · rintro ⟨hp, hs⟩
        exact ⟨fun k hk => (hp k hk).symm, hs⟩
    · have he : DefaultVec.eq a b =
          (decide (b = a.take b.length) &&
            (a.drop b.length).all fun x => decide (x = (default : α))) := by
        simp [DefaultVec.eq, Nat.not_lt.2 h]
      rw [he, if_neg (Nat.not_lt.2 h), Nat.min_eq_right h, eq_branch a b h]
  · intro v
    have h1 : ([v] : List Nat).length < (v :: List.replicate 99 (0 : Nat)).length := by
      simp
    have he : DefaultVec.eq [v] (v :: List.replicate 99 (0 : Nat)) =
        (decide (([v] : List Nat) = (v :: List.replicate 99 (0 : Nat)).take 1) &&
          ((v :: List.replicate 99 (0 : Nat)).drop 1).all
            fun x => decide (x = (default : Nat))) := by
      simp [DefaultVec.eq, h1]
    rw [he, Bool.and_eq_true]
    constructor
    · rw [decide_eq_true_eq]
      rfl
    · rw [List.all_eq_true]
      intro x hx
      rw [decide_eq_true_eq]
      have hx2 : x ∈ List.replicate 99 (0 : Nat) := by simpa using hx
      exact List.eq_of_mem_replicate hx2

/-! Lemmas about `FlagVec.iter`. -/

theorem length_unpack_word (n k x : Nat) : (FlagVec.unpack_word n k x).length = k := by
  induction k generalizing x with
  | zero => rfl
  | succ k ih => simp [FlagVec.unpack_word, ih]

theorem getD_unpack_word (n k x i : Nat) (h : i < k) :
    (FlagVec.unpack_word n k x).getD i 0 = (x >>> (i * (n % 32))) &&& base_mask n := by
  induction k generalizing x i with
  | zero => omega
  | succ k ih =>
    cases i with
    | zero => simp [FlagVec.unpack_word]
    | succ i =>
      rw [show FlagVec.unpack_word n (k + 1) x
          = (x &&& base_mask n) :: FlagVec.unpack_word n k (shr32 x n) from rfl,
        List.getD_cons_succ, ih (shr32 x n) i (by omega)]
      unfold shr32
      rw [← Nat.shiftRight_add]
      have harith : n % 32 + i * (n % 32) = (i + 1) * (n % 32) := by ring
      rw [harith]

theorem length_iter (n : Nat) (d : List Nat) :
    (FlagVec.iter n d).length = d.length * chunk_size n := by
  induction d with
  | nil => simp [FlagVec.iter]
  | cons w rest ih =>
    rw [show FlagVec.iter n (w :: rest)
        = FlagVec.unpack_word n (chunk_size n) w ++ FlagVec.iter n rest from rfl,
      List.length_append, length_unpack_word, ih]
    simp only [List.length_cons]
    ring

theorem split_mul_add (n q r : Nat) (h1 : 1 ≤ n) (h2 : n ≤ 32) (hr : r < chunk_size n) :
    split n (q * chunk_size n + r) = (q, r * n) := by
  have hcs : 0 < chunk_size n := Nat.div_pos h2 h1
  have hq : (q * chunk_size n + r) / chunk_size n = q := by
    rw [show q * chunk_size n + r = chunk_size n * q + r by ring, Nat.mul_add_div hcs,
      Nat.div_eq_of_lt hr, Nat.add_zero]
  have hm : (q * chunk_size n + r) % chunk_size n = r := by
    rw [show q * chunk_size n + r = chunk_size n * q + r by ring, Nat.mul_add_mod,
      Nat.mod_eq_of_lt hr]
  simp only [split, hq, hm]

theorem off_mod_32 (n r : Nat) (h1 : 1 ≤ n) (h2 : n ≤ 32) (hr : r < chunk_size n) :
    (r * n) % 32 = r * (n % 32) := by
  rcases Nat.lt_or_ge n 32 with h | h
  · have hn : n % 32 = n := Nat.mod_eq_of_lt h
    have hb : r * n + n ≤ chunk_size n * n := by
      calc r * n + n = (r + 1) * n := by ring
      _ ≤ chunk_size n * n := Nat.mul_le_mul_right _ hr
    have h32 := chunk_mul_le n
    rw [hn]
    exact Nat.mod_eq_of_lt (by omega)
  · have hn : n = 32 := by omega
    subst hn
    have hcs1 : chunk_size 32 = 1 := rfl
    have hr1 : r = 0 := by omega
    subst hr1
    simp

theorem getD_iter_index (n : Nat) (h1 : 1 ≤ n) (h2 : n ≤ 32) (d : List Nat)
    (q r : Nat) (hr : r < chunk_size n) (hq : q < d.length) :
    (FlagVec.iter n d).getD (q * chunk_size n + r) 0
      = FlagVec.get n d (q * chunk_size n + r) := by
  induction d generalizing q with
  | nil => simp at hq
  | cons w rest ih =>
    rw [show FlagVec.iter n (w :: rest)
        = FlagVec.unpack_word n (chunk_size n) w ++ FlagVec.iter n rest from rfl]
    cases q with
    | zero =>
      simp only [Nat.zero_mul, Nat.zero_add]
      have hlen : r < (FlagVec.unpack_word n (chunk_size n) w).length := by
        rw [length_unpack_word]; omega
      rw [List.getD_append _ _ _ _ hlen, getD_unpack_word n (chunk_size n) w r hr]
      have hs : split n r = (0, r * n) := by
        have := split_mul_add n 0 r h1 h2 hr
        simpa using this
      unfold FlagVec.get DefaultVec.get shr32
      rw [hs]
      dsimp only
      rw [List.getD_cons_zero, off_mod_32 n r h1 h2 hr]
    | succ q =>
      have hexp : (q + 1) * chunk_size n = q * chunk_size n + chunk_size n := by ring
      have hlen : (FlagVec.unpack_word n (chunk_size n) w).length
          ≤ (q + 1) * chunk_size n + r := by
        rw [length_unpack_word]; omega
      rw [List.getD_append_right _ _ _ _ hlen, length_unpack_word]
      have hidx : (q + 1) * chunk_size n + r - chunk_size n = q * chunk_size n + r := by
        omega
      have hq2 : q < rest.length := by
        simp only [List.length_cons] at hq
        omega
      rw [hidx, ih q hq2]
      unfold FlagVec.get DefaultVec.get
      rw [split_mul_add n q r h1 h2 hr, split_mul_add n (q + 1) r h1 h2 hr]
      dsimp only
      rw [List.getD_cons_succ]

/-- C8: `iter` produces exactly `capacity` values, unpacking each backing
word into `chunk_size` values in ascending bit-offset order with words in
ascending index order, and the `i`-th produced value equals `get i` for
every `i < capacity`. -/
theorem iter_spec (n : Nat) (d : List Nat) (h1 : 1 ≤ n) (h2 : n ≤ 32) :
    (FlagVec.iter n d).length = FlagVec.capacity n d ∧
      ∀ i, i < FlagVec.capacity n d →
        (FlagVec.iter n d).getD i 0 = FlagVec.get n d i := by
  have hcs : 0 < chunk_size n := Nat.div_pos h2 h1
  constructor
  · rw [length_iter]; rfl
  · intro i hi
    have hqd : i / chunk_size n < d.length := by
      rw [Nat.div_lt_iff_lt_mul hcs]
      exact hi
    have hdec : i = (i / chunk_size n) * chunk_size n + i % chunk_size n :=
      (Nat.div_add_mod' i (chunk_size n)).symm
    rw [hdec]
    exact getD_iter_index n h1 h2 d _ _ (Nat.mod_lt _ hcs) hqd

/-- C8 witness: a width-10 store over one backing word. -/
theorem iter_spec_witness :
    (FlagVec.iter 10 [999]).length = FlagVec.capacity 10 [999] :=
  (iter_spec 10 [999] (by norm_num) (by norm_num)).1

end DV2
